import Mathlib

/-!
Verification of the keyed resource pool in `src/v1/internal/pool.js`
(class `Pool`).

Modelling conventions (shallow embedding):

* A JS array used as a stack (`push`/`pop` at the end) is modelled as a
  Lean list whose HEAD is the top of the stack: `push` is `List.cons`
  and `pop` takes the head, so the head of the Lean list is the most
  recently pushed resource.
* The JS object `this._pools` is modelled as an association list kept
  in property-insertion order (`setKey` replaces in place or appends,
  `eraseKey` models `delete`).
* The injected `destroy` callback is opaque and observable only through
  its calls, so every operation additionally returns the list of
  resources it destroyed, in call order.  `acquire` likewise reports
  whether it called the `create` factory (field `createdNew`).
* The JS field names `_create`, `_destroy`, `_validate`, `_maxIdle`,
  `_pools` are rendered without the leading underscore.
* For a fallible factory (`create` may throw), `Pool.acquireE` is the
  same `acquire` with the factory returning `Except`; the returned pool
  state is the state at the moment the exception escapes, since JS does
  not roll back mutations already performed.
-/

namespace PoolSpec

variable {K R E V : Type}

/-- Property lookup `m[k]` on the association-list model of a JS object. -/
def lookupKey [DecidableEq K] : List (K × V) → K → Option V
  | [], _ => none
  | (k2, v) :: rest, k => if k = k2 then some v else lookupKey rest k

/-- Property assignment `m[k] = v`: replaces the entry in place if the key
is present, otherwise appends it (JS property-insertion order). -/
def setKey [DecidableEq K] : List (K × V) → K → V → List (K × V)
  | [], k, v => [(k, v)]
  | (k2, v2) :: rest, k, v =>
    if k = k2 then (k, v) :: rest else (k2, v2) :: setKey rest k v

/-- Property deletion `delete m[k]`. -/
def eraseKey [DecidableEq K] : List (K × V) → K → List (K × V)
  | [], _ => []
  | (k2, v2) :: rest, k =>
    if k = k2 then eraseKey rest k else (k2, v2) :: eraseKey rest k

/-- State of one `Pool` instance: the three injected behaviours that the
operations read (`destroy` is pure effect and is modelled by the destroyed
logs instead), the `maxIdle` bound, and the key-to-idle-list mapping. -/
structure Pool (K R : Type) where
  create : K → R
  validate : R → Bool
  maxIdle : Nat
  pools : List (K × List R)

/-- The `while (pool.length)` loop inside `acquire`: pops resources from
the top of the stack until one validates.  Returns the resource found (if
any), the remaining list, and the invalid resources destroyed, in order. -/
def popLoop (validate : R → Bool) : List R → Option R × List R × List R
  | [] => (none, [], [])
  | r :: rest =>
    if validate r then (some r, rest, [])
    else
      let out := popLoop validate rest
      (out.1, out.2.1, r :: out.2.2)

/-- Everything observable about one `acquire` call: the returned resource,
the pool state afterwards, the resources destroyed during the call, and
whether the `create` factory was invoked. -/
structure AcquireResult (K R : Type) where
  resource : R
  pool : Pool K R
  destroyed : List R
  createdNew : Bool

/-- `Pool.acquire(key)`: ensures the key has an idle-list, pops until a
resource validates (destroying invalid ones), and otherwise returns
`create(key, this._release)` directly. -/
def Pool.acquire [DecidableEq K] (p : Pool K R) (k : K) : AcquireResult K R :=
  let idle := (lookupKey p.pools k).getD []
  match popLoop p.validate idle with
  | (some r, rem, des) =>
    { resource := r, pool := { p with pools := setKey p.pools k rem },
      destroyed := des, createdNew := false }
  | (none, _, des) =>
    { resource := p.create k, pool := { p with pools := setKey p.pools k [] },
      destroyed := des, createdNew := true }

/-- `Pool._release(key, resource)`: destroy if the key was purged, destroy
if the list is full or the resource no longer validates, otherwise push. -/
def Pool.release [DecidableEq K] (p : Pool K R) (k : K) (r : R) :
    Pool K R × List R :=
  match lookupKey p.pools k with
  | none => (p, [r])
  | some idle =>
    if p.maxIdle ≤ idle.length ∨ p.validate r = false then (p, [r])
    else ({ p with pools := setKey p.pools k (r :: idle) }, [])

/-- `Pool.purge(key)`: destroy every idle resource of the key (in pop
order), then delete the key. -/
def Pool.purge [DecidableEq K] (p : Pool K R) (k : K) : Pool K R × List R :=
  ({ p with pools := eraseKey p.pools k }, (lookupKey p.pools k).getD [])

/-- One step of `purgeAll`'s `forEach`: purge the key, accumulating the
destroyed log. -/
def purgeStep [DecidableEq K] (acc : Pool K R × List R) (k : K) :
    Pool K R × List R :=
  let out := acc.1.purge k
  (out.1, acc.2 ++ out.2)

/-- `Pool.purgeAll()`: purge every key in the snapshot
`Object.keys(this._pools)`, in insertion order. -/
def Pool.purgeAll [DecidableEq K] (p : Pool K R) : Pool K R × List R :=
  (p.pools.map Prod.fst).foldl purgeStep (p, [])

/-- `Pool.has(key)`: `key in this._pools`. -/
def Pool.has [DecidableEq K] (p : Pool K R) (k : K) : Bool :=
  (lookupKey p.pools k).isSome

/-- The state built by the constructor: the injected behaviours and an
empty mapping. -/
def Pool.init (create : K → R) (validate : R → Bool) (maxIdle : Nat) :
    Pool K R :=
  { create := create, validate := validate, maxIdle := maxIdle, pools := [] }

/-- `acquire` with a fallible factory: identical to `Pool.acquire` except
that the factory returns `Except E R`; the pool state returned is the state
at the moment the call finishes (or the exception escapes). -/
def Pool.acquireE [DecidableEq K] (p : Pool K R) (createE : K → Except E R)
    (k : K) : Except E R × Pool K R × List R :=
  let idle := (lookupKey p.pools k).getD []
  match popLoop p.validate idle with
  | (some r, rem, des) =>
    (Except.ok r, { p with pools := setKey p.pools k rem }, des)
  | (none, _, des) =>
    (createE k, { p with pools := setKey p.pools k [] }, des)

/-- The public operations, as trace events. -/
inductive Op (K R : Type) where
  | acquire : K → Op K R
  | release : K → R → Op K R
  | purge : K → Op K R
  | purgeAll : Op K R
  | hasKey : K → Op K R

/-- State transition of one operation (`has` reads but never writes). -/
def Pool.step [DecidableEq K] (p : Pool K R) : Op K R → Pool K R
  | .acquire k => (p.acquire k).pool
  | .release k r => (p.release k r).1
  | .purge k => (p.purge k).1
  | .purgeAll => p.purgeAll.1
  | .hasKey _ => p

/-- Run a sequence of operations. -/
def Pool.run [DecidableEq K] (p : Pool K R) (ops : List (Op K R)) : Pool K R :=
  ops.foldl Pool.step p

/-- One step of releasing a batch of resources for the same key,
accumulating the destroyed log. -/
def relStep [DecidableEq K] (k : K) (acc : Pool K R × List R) (r : R) :
    Pool K R × List R :=
  let out := acc.1.release k r
  (out.1, acc.2 ++ out.2)

/-- Release each resource of `rs` in turn for key `k`. -/
def Pool.releaseSeq [DecidableEq K] (p : Pool K R) (k : K) (rs : List R) :
    Pool K R × List R :=
  rs.foldl (relStep k) (p, [])

/-- How one operation changes whether `has k` holds. -/
def hasAfter [DecidableEq K] (k : K) (b : Bool) : Op K R → Bool
  | .acquire k2 => if k2 = k then true else b
  | .purge k2 => if k2 = k then false else b
  | .purgeAll => false
  | _ => b

/-- Whether, by the end of the trace, key `k` has been touched by some
`acquire` and not purged since. -/
def acquiredSince [DecidableEq K] (k : K) (ops : List (Op K R)) : Bool :=
  ops.foldl (hasAfter k) false

/-- Invariant: every idle-list in the mapping respects the `maxIdle`
bound. -/
def GoodState [DecidableEq K] (p : Pool K R) : Prop :=
  ∀ k l, lookupKey p.pools k = some l → l.length ≤ p.maxIdle

/-- States reachable from a freshly constructed pool by running the
public operations. -/
def Reachable [DecidableEq K] (create : K → R) (validate : R → Bool)
    (maxIdle : Nat) (p : Pool K R) : Prop :=
  ∃ ops : List (Op K R), p = (Pool.init create validate maxIdle).run ops

/-! ### Association-list lemmas -/

theorem lookupKey_setKey [DecidableEq K] (m : List (K × V)) (k j : K) (v : V) :
    lookupKey (setKey m k v) j = if j = k then some v else lookupKey m j := by
  induction m with
  | nil => simp [setKey, lookupKey]
  | cons hd tl ih =>
    obtain ⟨k2, v2⟩ := hd
    by_cases hk : k = k2
    · subst hk
      by_cases hj : j = k <;> simp [setKey, lookupKey, hj]
    · by_cases hj : j = k2
      · subst hj
        have : ¬ j = k := fun h => hk h.symm
        simp [setKey, lookupKey, hk, this]
      · simp [setKey, lookupKey, hk, hj, ih]

theorem lookupKey_eraseKey [DecidableEq K] (m : List (K × V)) (k j : K) :
    lookupKey (eraseKey m k) j = if j = k then none else lookupKey m j := by
  induction m with
  | nil => simp [eraseKey, lookupKey]
  | cons hd tl ih =>
    obtain ⟨k2, v2⟩ := hd
    by_cases hk : k = k2
    · subst hk
      by_cases hj : j = k
      · subst hj
        simp [eraseKey, lookupKey, ih]
      · simp [eraseKey, lookupKey, hj, ih]
    · by_cases hj : j = k2
      · subst hj
        have : ¬ j = k := fun h => hk h.symm
        simp [eraseKey, lookupKey, hk, this]
      · simp [eraseKey, lookupKey, hk, hj, ih]

theorem eraseKey_of_lookupKey_none [DecidableEq K] (m : List (K × V)) (k : K)
    (h : lookupKey m k = none) : eraseKey m k = m := by
  induction m with
  | nil => rfl
  | cons hd tl ih =>
    obtain ⟨k2, v2⟩ := hd
    by_cases hk : k = k2
    · subst hk
      simp [lookupKey] at h
    · simp [lookupKey, hk] at h
      simp [eraseKey, hk, ih h]

theorem mem_keys_of_lookupKey [DecidableEq K] (m : List (K × V)) (k : K)
    (h : lookupKey m k ≠ none) : k ∈ m.map Prod.fst := by
  induction m with
  | nil => simp [lookupKey] at h
  | cons hd tl ih =>
    obtain ⟨k2, v2⟩ := hd
    by_cases hk : k = k2
    · subst hk
      simp
    · simp [lookupKey, hk] at h
      have := ih h
      simp only [List.map_cons]
      exact List.mem_cons_of_mem _ this

/-! ### The acquire loop -/

theorem popLoop_eq (v : R → Bool) (l : List R) :
    popLoop v l =
      ((l.dropWhile fun r => !v r).head?, (l.dropWhile fun r => !v r).tail,
        l.takeWhile fun r => !v r) := by
  induction l with
  | nil => rfl
  | cons r rest ih =>
    by_cases hv : v r
    · simp [popLoop, hv, List.dropWhile_cons, List.takeWhile_cons]
    · have hv2 : v r = false := by simpa using hv
      simp [popLoop, hv2, List.dropWhile_cons, List.takeWhile_cons, ih]

theorem popLoop_all_invalid (v : R → Bool) (l : List R)
    (h : ∀ r ∈ l, v r = false) : popLoop v l = (none, [], l) := by
  induction l with
  | nil => rfl
  | cons r rest ih =>
    have hr : v r = false := h r (by simp)
    have := ih fun x hx => h x (by simp [hx])
    simp [popLoop, hr, this]

/-- Characterization of `acquire` in terms of the idle-list at call time:
the invalid prefix (`takeWhile`) is destroyed, the first validating
resource (head of the `dropWhile`) is returned, and when the list is
exhausted the factory's result is returned directly. -/
theorem Pool.acquire_eq [DecidableEq K] (p : Pool K R) (k : K) :
    p.acquire k =
      match ((lookupKey p.pools k).getD []).dropWhile (fun r => !p.validate r) with
      | r :: rest =>
        { resource := r, pool := { p with pools := setKey p.pools k rest },
          destroyed := ((lookupKey p.pools k).getD []).takeWhile
            (fun r => !p.validate r),
          createdNew := false }
      | [] =>
        { resource := p.create k, pool := { p with pools := setKey p.pools k [] },
          destroyed := (lookupKey p.pools k).getD [], createdNew := true } := by
  cases hdw : ((lookupKey p.pools k).getD []).dropWhile (fun r => !p.validate r) with
  | nil =>
    have htw : ((lookupKey p.pools k).getD []).takeWhile (fun r => !p.validate r)
        = (lookupKey p.pools k).getD [] := by
      conv_rhs => rw [← List.takeWhile_append_dropWhile
        (p := fun r => !p.validate r) (l := (lookupKey p.pools k).getD [])]
      simp [hdw]
    simp [Pool.acquire, popLoop_eq, hdw, htw]
  | cons r rest => simp [Pool.acquire, popLoop_eq, hdw]

theorem length_dropWhile_le (f : R → Bool) (l : List R) :
    (l.dropWhile f).length ≤ l.length := by
  induction l with
  | nil => simp
  | cons r rest ih =>
    by_cases hf : f r
    · rw [List.dropWhile_cons]
      simp only [hf, if_true]
      exact Nat.le_trans ih (Nat.le_succ _)
    · have : f r = false := by simpa using hf
      simp [List.dropWhile_cons, this]

/-- The pool state after `acquire`: the key is bound to what is left of
its idle-list after the invalid prefix and the returned head are gone. -/
theorem Pool.acquire_pool_eq [DecidableEq K] (p : Pool K R) (k : K) :
    (p.acquire k).pool = { p with pools := setKey p.pools k (List.tail (List.dropWhile (fun r => !p.validate r) ((lookupKey p.pools k).getD []))) } := by
  rw [Pool.acquire_eq]
  cases hdw : ((lookupKey p.pools k).getD []).dropWhile (fun r => !p.validate r) with
  | nil => simp
  | cons r rest => simp

/-! ### release case lemmas -/

theorem Pool.release_none [DecidableEq K] (p : Pool K R) (k : K) (r : R)
    (h : lookupKey p.pools k = none) : p.release k r = (p, [r]) := by
  simp [Pool.release, h]

theorem Pool.release_destroy [DecidableEq K] (p : Pool K R) (k : K) (r : R)
    (idle : List R) (h : lookupKey p.pools k = some idle)
    (hc : p.maxIdle ≤ idle.length ∨ p.validate r = false) :
    p.release k r = (p, [r]) := by
  simp only [Pool.release, h]
  rw [if_pos hc]

theorem Pool.release_push [DecidableEq K] (p : Pool K R) (k : K) (r : R)
    (idle : List R) (h : lookupKey p.pools k = some idle)
    (hlen : idle.length < p.maxIdle) (hv : p.validate r = true) :
    p.release k r = ({ p with pools := setKey p.pools k (r :: idle) }, []) := by
  simp only [Pool.release, h]
  rw [if_neg]
  rintro (hc | hc)
  · exact absurd hc (Nat.not_le.mpr hlen)
  · rw [hv] at hc
    exact Bool.noConfusion hc

/-! ### purgeAll -/

theorem purgeFold_state [DecidableEq K] (ks : List K) (p : Pool K R)
    (log : List R) :
    ((ks.foldl purgeStep (p, log)).1 : Pool K R) =
      { p with pools := ks.foldl eraseKey p.pools } := by
  induction ks generalizing p log with
  | nil => rfl
  | cons k ks ih =>
    simp only [List.foldl_cons]
    rw [show purgeStep (p, log) k
      = ({ p with pools := eraseKey p.pools k },
          log ++ (lookupKey p.pools k).getD []) from rfl]
    rw [ih]

theorem foldl_eraseKey_eq_nil [DecidableEq K] (ks : List K) :
    ∀ m : List (K × V), (∀ j, lookupKey m j ≠ none → j ∈ ks) →
      ks.foldl eraseKey m = [] := by
  induction ks with
  | nil =>
    intro m h
    cases m with
    | nil => rfl
    | cons hd tl =>
      exact absurd (h hd.1 (by simp [lookupKey])) (by simp)
  | cons k ks ih =>
    intro m h
    simp only [List.foldl_cons]
    refine ih (eraseKey m k) fun j hj => ?_
    rw [lookupKey_eraseKey] at hj
    by_cases hjk : j = k
    · simp [hjk] at hj
    · rw [if_neg hjk] at hj
      rcases List.mem_cons.mp (h j hj) with h1 | h1
      · exact absurd h1 hjk
      · exact h1

theorem Pool.purgeAll_fst [DecidableEq K] (p : Pool K R) :
    (p.purgeAll).1 = { p with pools := [] } := by
  unfold Pool.purgeAll
  rw [purgeFold_state]
  rw [foldl_eraseKey_eq_nil (p.pools.map Prod.fst) p.pools
    (fun j hj => mem_keys_of_lookupKey p.pools j hj)]

/-! ### how each operation changes key presence -/

theorem Pool.acquire_has [DecidableEq K] (p : Pool K R) (k j : K) :
    (p.acquire k).pool.has j = (if j = k then true else p.has j) := by
  rw [Pool.has, Pool.acquire_pool_eq]
  simp only [lookupKey_setKey]
  by_cases hj : j = k <;> simp [hj, Pool.has]

theorem Pool.release_has [DecidableEq K] (p : Pool K R) (k : K) (r : R)
    (j : K) : (p.release k r).1.has j = p.has j := by
  cases hlk : lookupKey p.pools k with
  | none => rw [Pool.release_none p k r hlk]
  | some idle =>
    by_cases hc : p.maxIdle ≤ idle.length ∨ p.validate r = false
    · rw [Pool.release_destroy p k r idle hlk hc]
    · have hlen : idle.length < p.maxIdle := by
        rcases Nat.lt_or_ge idle.length p.maxIdle with h1 | h1
        · exact h1
        · exact absurd (Or.inl h1) hc
      have hv : p.validate r = true := by
        cases hvv : p.validate r with
        | false => exact absurd (Or.inr hvv) hc
        | true => rfl
      rw [Pool.release_push p k r idle hlk hlen hv]
      simp only [Pool.has, lookupKey_setKey]
      by_cases hj : j = k
      · simp [hj, hlk]
      · simp [hj]

theorem Pool.purge_has [DecidableEq K] (p : Pool K R) (k j : K) :
    (p.purge k).1.has j = (if j = k then false else p.has j) := by
  simp only [Pool.purge, Pool.has, lookupKey_eraseKey]
  by_cases hj : j = k <;> simp [hj]

theorem Pool.purgeAll_has [DecidableEq K] (p : Pool K R) (j : K) :
    (p.purgeAll).1.has j = false := by
  rw [Pool.purgeAll_fst]
  simp [Pool.has, lookupKey]

/-! ### the injected behaviours and the bound are immutable -/

theorem not_release_cond [DecidableEq K] {p : Pool K R} {idle : List R} {r : R}
    (hc : ¬(p.maxIdle ≤ idle.length ∨ p.validate r = false)) :
    idle.length < p.maxIdle ∧ p.validate r = true := by
  constructor
  · rcases Nat.lt_or_ge idle.length p.maxIdle with h1 | h1
    · exact h1
    · exact absurd (Or.inl h1) hc
  · cases hvv : p.validate r with
    | false => exact absurd (Or.inr hvv) hc
    | true => rfl

theorem Pool.release_fst_fields [DecidableEq K] (p : Pool K R) (k : K) (r : R) :
    (p.release k r).1.create = p.create ∧ (p.release k r).1.validate = p.validate
      ∧ (p.release k r).1.maxIdle = p.maxIdle := by
  unfold Pool.release
  split
  · exact ⟨rfl, rfl, rfl⟩
  · split
    · exact ⟨rfl, rfl, rfl⟩
    · exact ⟨rfl, rfl, rfl⟩

theorem Pool.step_fields [DecidableEq K] (p : Pool K R) (op : Op K R) :
    (p.step op).create = p.create ∧ (p.step op).validate = p.validate
      ∧ (p.step op).maxIdle = p.maxIdle := by
  cases op with
  | acquire k =>
    simp only [Pool.step]
    rw [Pool.acquire_pool_eq]
    exact ⟨rfl, rfl, rfl⟩
  | release k r => exact Pool.release_fst_fields p k r
  | purge k => exact ⟨rfl, rfl, rfl⟩
  | purgeAll =>
    simp only [Pool.step]
    rw [Pool.purgeAll_fst]
    exact ⟨rfl, rfl, rfl⟩
  | hasKey k => exact ⟨rfl, rfl, rfl⟩

/-! ### the maxIdle invariant is preserved by every operation -/

theorem goodState_init [DecidableEq K] (create : K → R) (validate : R → Bool)
    (maxIdle : Nat) : GoodState (Pool.init create validate maxIdle) := by
  intro j l hj
  simp [Pool.init, lookupKey] at hj

theorem goodState_step [DecidableEq K] (p : Pool K R) (op : Op K R)
    (h : GoodState p) : GoodState (p.step op) := by
  cases op with
  | acquire k =>
    intro j l hj
    simp only [Pool.step] at hj ⊢
    rw [Pool.acquire_pool_eq] at hj ⊢
    rw [lookupKey_setKey] at hj
    by_cases hjk : j = k
    · rw [if_pos hjk, Option.some_inj] at hj
      subst hj
      show (List.tail (List.dropWhile (fun r => !p.validate r)
        ((lookupKey p.pools k).getD []))).length ≤ p.maxIdle
      cases hlk : lookupKey p.pools k with
      | none => simp [hlk]
      | some idle =>
        have h1 := h k idle hlk
        have h2 := length_dropWhile_le (fun r => !p.validate r) idle
        simp only [hlk, Option.getD_some]
        rw [List.length_tail]
        omega
    · rw [if_neg hjk] at hj
      exact h j l hj
  | release k r =>
    intro j l hj
    simp only [Pool.step] at hj ⊢
    cases hlk : lookupKey p.pools k with
    | none =>
      rw [Pool.release_none p k r hlk] at hj ⊢
      exact h j l hj
    | some idle =>
      by_cases hc : p.maxIdle ≤ idle.length ∨ p.validate r = false
      · rw [Pool.release_destroy p k r idle hlk hc] at hj ⊢
        exact h j l hj
      · obtain ⟨hlen, hv⟩ := not_release_cond hc
        rw [Pool.release_push p k r idle hlk hlen hv] at hj ⊢
        rw [lookupKey_setKey] at hj
        by_cases hjk : j = k
        · rw [if_pos hjk, Option.some_inj] at hj
          subst hj
          show (r :: idle).length ≤ p.maxIdle
          simp only [List.length_cons]
          omega
        · rw [if_neg hjk] at hj
          exact h j l hj
  | purge k =>
    intro j l hj
    simp only [Pool.step, Pool.purge] at hj ⊢
    rw [lookupKey_eraseKey] at hj
    by_cases hjk : j = k
    · simp [hjk] at hj
    · rw [if_neg hjk] at hj
      exact h j l hj
  | purgeAll =>
    intro j l hj
    simp only [Pool.step] at hj
    rw [Pool.purgeAll_fst] at hj
    simp [lookupKey] at hj
  | hasKey k => exact h

theorem goodState_run [DecidableEq K] (ops : List (Op K R)) :
    ∀ p : Pool K R, GoodState p → GoodState (p.run ops) := by
  induction ops with
  | nil => exact fun p h => h
  | cons op ops ih =>
    intro p h
    simp only [Pool.run, List.foldl_cons]
    exact ih (p.step op) (goodState_step p op h)

theorem run_maxIdle [DecidableEq K] (ops : List (Op K R)) :
    ∀ p : Pool K R, (p.run ops).maxIdle = p.maxIdle := by
  induction ops with
  | nil => exact fun _ => rfl
  | cons op ops ih =>
    intro p
    simp only [Pool.run, List.foldl_cons]
    rw [show List.foldl Pool.step (p.step op) ops = (p.step op).run ops from rfl]
    rw [ih, (Pool.step_fields p op).2.2]

/-! ### key presence along a trace -/

theorem Pool.step_has [DecidableEq K] (p : Pool K R) (op : Op K R) (j : K) :
    (p.step op).has j = hasAfter j (p.has j) op := by
  cases op with
  | acquire k =>
    simp only [Pool.step, hasAfter]
    rw [Pool.acquire_has]
    by_cases hjk : j = k
    · simp [hjk]
    · have : ¬ k = j := fun hh => hjk hh.symm
      simp [hjk, this]
  | release k r =>
    simp only [Pool.step, hasAfter]
    exact Pool.release_has p k r j
  | purge k =>
    simp only [Pool.step, hasAfter]
    rw [Pool.purge_has]
    by_cases hjk : j = k
    · simp [hjk]
    · have : ¬ k = j := fun hh => hjk hh.symm
      simp [hjk, this]
  | purgeAll =>
    simp only [Pool.step, hasAfter]
    exact Pool.purgeAll_has p j
  | hasKey k => rfl

theorem run_has_foldl [DecidableEq K] (ops : List (Op K R)) :
    ∀ (p : Pool K R) (j : K),
      (p.run ops).has j = ops.foldl (hasAfter j) (p.has j) := by
  induction ops with
  | nil => exact fun _ _ => rfl
  | cons op ops ih =>
    intro p j
    simp only [Pool.run, List.foldl_cons]
    rw [show List.foldl Pool.step (p.step op) ops = (p.step op).run ops from rfl]
    rw [ih, Pool.step_has]

/-! ### releasing a batch of resources under an always-true validator -/

theorem releaseSeq_foldl_spec [DecidableEq K] (rs : List R) :
    ∀ (p : Pool K R) (k : K) (idle log : List R),
      (∀ r, p.validate r = true) → lookupKey p.pools k = some idle →
      idle.length ≤ p.maxIdle →
      ∃ idle2 : List R,
        lookupKey ((rs.foldl (relStep k) (p, log)).1).pools k = some idle2 ∧
        idle2.length = min (idle.length + rs.length) p.maxIdle ∧
        ((rs.foldl (relStep k) (p, log)).2).length
          = log.length + (idle.length + rs.length - p.maxIdle) := by
  induction rs with
  | nil =>
    intro p k idle log hval hlk hle
    refine ⟨idle, ?_, ?_, ?_⟩
    · simpa only [List.foldl_nil] using hlk
    · simp only [List.length_nil]
      omega
    · simp only [List.foldl_nil, List.length_nil]
      omega
  | cons r rs ih =>
    intro p k idle log hval hlk hle
    simp only [List.foldl_cons]
    by_cases hfull : p.maxIdle ≤ idle.length
    · have hrel := Pool.release_destroy p k r idle hlk (Or.inl hfull)
      rw [show relStep k (p, log) r = ((p.release k r).1, log ++ (p.release k r).2)
        from rfl, hrel]
      obtain ⟨idle2, ha, hb, hcc⟩ := ih p k idle (log ++ [r]) hval hlk hle
      refine ⟨idle2, ha, ?_, ?_⟩
      · simp only [List.length_cons]
        omega
      · rw [hcc]
        simp only [List.length_append, List.length_cons, List.length_nil]
        omega
    · have hlen : idle.length < p.maxIdle := Nat.lt_of_not_le hfull
      have hrel := Pool.release_push p k r idle hlk hlen (hval r)
      rw [show relStep k (p, log) r = ((p.release k r).1, log ++ (p.release k r).2)
        from rfl, hrel]
      have hlk2 : lookupKey (setKey p.pools k (r :: idle)) k = some (r :: idle) := by
        rw [lookupKey_setKey, if_pos rfl]
      obtain ⟨idle2, ha, hb, hcc⟩ :=
        ih { p with pools := setKey p.pools k (r :: idle) } k (r :: idle)
          (log ++ []) hval hlk2 (by simp only [List.length_cons]; omega)
      refine ⟨idle2, ha, ?_, ?_⟩
      · rw [hb]
        simp only [List.length_cons]
        omega
      · rw [hcc]
        simp only [List.length_append, List.length_cons, List.length_nil]
        omega

theorem dropWhile_cons_head_false (f : R → Bool) (l : List R) (r : R)
    (rest : List R) (h : l.dropWhile f = r :: rest) : f r = false := by
  induction l with
  | nil => exact absurd h (by simp)
  | cons x xs ih =>
    by_cases hx : f x
    · rw [List.dropWhile_cons] at h
      simp only [hx, if_true] at h
      exact ih h
    · have hx2 : f x = false := by simpa using hx
      rw [List.dropWhile_cons] at h
      simp only [hx2] at h
      cases h
      exact hx2

/-! ## The claims -/

/-- Claim C1: for every key, `acquire(key)` repeatedly pops the
most-recently-pushed resource from that key's idle-list (the head of the
modelled stack), destroys each popped resource that fails `validate`,
returns the first popped resource that validates, and if the list is
exhausted without a valid resource it returns `create(key, releaseCallback)`
directly, with no validation of the newly created resource (its result is
returned whatever `validate` would say about it). -/
theorem C1_acquire_spec [DecidableEq K] (p : Pool K R) (k : K) :
    (∀ r rest,
      ((lookupKey p.pools k).getD []).dropWhile (fun x => !p.validate x)
          = r :: rest →
      p.validate r = true ∧
      p.acquire k = AcquireResult.mk r { p with pools := setKey p.pools k rest }
        (((lookupKey p.pools k).getD []).takeWhile (fun x => !p.validate x))
        false) ∧
    (((lookupKey p.pools k).getD []).dropWhile (fun x => !p.validate x) = [] →
      p.acquire k = AcquireResult.mk (p.create k)
        { p with pools := setKey p.pools k [] }
        ((lookupKey p.pools k).getD []) true) := by
  constructor
  · intro r rest hdw
    constructor
    · have := dropWhile_cons_head_false (fun x => !p.validate x) _ r rest hdw
      simpa using this
    · rw [Pool.acquire_eq, hdw]
  · intro hdw
    rw [Pool.acquire_eq, hdw]

/-- Witness for C1: a pool whose idle-list for key 0 is `[9, 7, 8]` (9 most
recent) under an even-number validator returns 8, destroying 9 and 7; a pool
whose only idle resource fails an always-false validator destroys it and
returns the factory's resource 99 even though 99 fails the validator too. -/
theorem C1_witness :
    (Pool.mk (fun _ => 99) (fun r => r % 2 == 0) 50
        [(0, [9, 7, 8])] : Pool Nat Nat).acquire 0
      = AcquireResult.mk 8
          (Pool.mk (fun _ => 99) (fun r => r % 2 == 0) 50 [(0, [])])
          [9, 7] false ∧
    (Pool.mk (fun _ => 99) (fun _ => false) 50
        [(0, [7])] : Pool Nat Nat).acquire 0
      = AcquireResult.mk 99
          (Pool.mk (fun _ => 99) (fun _ => false) 50 [(0, [])])
          [7] true := by
  constructor
  · exact ((C1_acquire_spec
      (Pool.mk (fun _ => 99) (fun r => r % 2 == 0) 50
        [(0, [9, 7, 8])] : Pool Nat Nat) 0).1 8 [] rfl).2
  · exact (C1_acquire_spec
      (Pool.mk (fun _ => 99) (fun _ => false) 50
        [(0, [7])] : Pool Nat Nat) 0).2 rfl

/-- Claim C5: for every key, `purge(key)` destroys exactly the resources
currently in that key's idle-list (the destroyed log is that list), removes
the key from the mapping, so `has(key)` is false afterwards, and the next
`acquire(key)` makes the key present again. -/
theorem C5_purge_spec [DecidableEq K] (p : Pool K R) (k : K) :
    (p.purge k).2 = (lookupKey p.pools k).getD [] ∧
    lookupKey (p.purge k).1.pools k = none ∧
    (p.purge k).1.has k = false ∧
    ((p.purge k).1.acquire k).pool.has k = true := by
  refine ⟨rfl, ?_, ?_, ?_⟩
  · show lookupKey (eraseKey p.pools k) k = none
    rw [lookupKey_eraseKey, if_pos rfl]
  · rw [Pool.purge_has, if_pos rfl]
  · rw [Pool.acquire_has, if_pos rfl]

/-- Claim C6: releasing a resource for a key whose list no longer exists
destroys the resource, leaves the whole pool state unchanged (so the key's
list is not re-created), and `has(key)` remains false. -/
theorem C6_release_after_purge [DecidableEq K] (p : Pool K R) (k : K) (r : R)
    (h : lookupKey p.pools k = none) :
    p.release k r = (p, [r]) ∧ (p.release k r).1.has k = false := by
  refine ⟨Pool.release_none p k r h, ?_⟩
  rw [Pool.release_none p k r h]
  show (lookupKey p.pools k).isSome = false
  rw [h]
  rfl

/-- Witness for C6: key 0 is not in the mapping, so releasing resource 5
for it destroys 5, changes nothing, and `has 0` stays false. -/
theorem C6_witness :
    (Pool.mk (fun _ => 0) (fun _ => true) 50 [(1, [7])] : Pool Nat Nat).release 0 5
      = ((Pool.mk (fun _ => 0) (fun _ => true) 50 [(1, [7])] : Pool Nat Nat), [5]) ∧
    ((Pool.mk (fun _ => 0) (fun _ => true) 50
        [(1, [7])] : Pool Nat Nat).release 0 5).1.has 0 = false :=
  C6_release_after_purge
    (Pool.mk (fun _ => 0) (fun _ => true) 50 [(1, [7])] : Pool Nat Nat) 0 5 rfl

/-- Claim C7: after any sequence of operations starting from a fresh pool,
`has(key)` is true exactly when some `acquire(key)` occurred and the key
has not been purged (individually or by `purgeAll`) since; in particular it
is false for keys never acquired. -/
theorem C7_has_iff_acquired [DecidableEq K] (create : K → R)
    (validate : R → Bool) (maxIdle : Nat) (ops : List (Op K R)) (k : K) :
    ((Pool.init create validate maxIdle).run ops).has k = acquiredSince k ops := by
  rw [run_has_foldl]
  rfl

/-- Claim C10: purging a key that is not present in the mapping destroys
nothing and returns the pool state unchanged. -/
theorem C10_purge_missing_noop [DecidableEq K] (p : Pool K R) (k : K)
    (h : lookupKey p.pools k = none) : p.purge k = (p, []) := by
  unfold Pool.purge
  rw [eraseKey_of_lookupKey_none p.pools k h, h]
  rfl

/-- Witness for C10: purging absent key 0 leaves the pool untouched and
destroys nothing. -/
theorem C10_witness :
    (Pool.mk (fun _ => 0) (fun _ => true) 50 [(1, [5])] : Pool Nat Nat).purge 0
      = ((Pool.mk (fun _ => 0) (fun _ => true) 50 [(1, [5])] : Pool Nat Nat), []) :=
  C10_purge_missing_noop
    (Pool.mk (fun _ => 0) (fun _ => true) 50 [(1, [5])] : Pool Nat Nat) 0 rfl

/-- Claim C2: when the key's list exists, `release(key, resource)` destroys
the resource and leaves the state unchanged if the list is at `maxIdle`
capacity or the resource fails `validate`, and otherwise pushes it; and
with `maxIdle = N` and an always-true validator, releasing `N + 1`
resources for a key starting from an empty list produces exactly one
destroy call and leaves exactly `N` resources idle. -/
theorem C2_release_spec [DecidableEq K] :
    (∀ (p : Pool K R) (k : K) (idle : List R) (r : R),
      lookupKey p.pools k = some idle →
      ((p.maxIdle ≤ idle.length ∨ p.validate r = false) →
        p.release k r = (p, [r])) ∧
      (idle.length < p.maxIdle → p.validate r = true →
        p.release k r = ({ p with pools := setKey p.pools k (r :: idle) }, []))) ∧
    (∀ (p : Pool K R) (k : K) (rs : List R),
      (∀ r, p.validate r = true) → lookupKey p.pools k = some [] →
      rs.length = p.maxIdle + 1 →
      (p.releaseSeq k rs).2.length = 1 ∧
      ∃ idle2, lookupKey (p.releaseSeq k rs).1.pools k = some idle2 ∧
        idle2.length = p.maxIdle) := by
  constructor
  · intro p k idle r hlk
    constructor
    · exact fun hc => Pool.release_destroy p k r idle hlk hc
    · exact fun hlen hv => Pool.release_push p k r idle hlk hlen hv
  · intro p k rs hval hlk hrs
    obtain ⟨idle2, ha, hb, hc⟩ :=
      releaseSeq_foldl_spec rs p k [] [] hval hlk (Nat.zero_le _)
    refine ⟨?_, idle2, ha, ?_⟩
    · rw [show (p.releaseSeq k rs).2 = (rs.foldl (relStep k) (p, [])).2 from rfl]
      rw [hc]
      simp only [List.length_nil]
      omega
    · rw [hb]
      simp only [List.length_nil]
      omega

/-- Witness for C2: with `maxIdle = 1` a release onto a full list destroys
the resource and changes nothing; with `maxIdle = 2` releasing [10, 20, 30]
onto an empty list destroys exactly one resource and leaves two idle. -/
theorem C2_witness :
    (Pool.mk (fun _ => 0) (fun _ => true) 1 [(0, [5])] : Pool Nat Nat).release 0 7
      = ((Pool.mk (fun _ => 0) (fun _ => true) 1 [(0, [5])] : Pool Nat Nat), [7]) ∧
    (((Pool.mk (fun _ => 0) (fun _ => true) 2
        [(0, [])] : Pool Nat Nat).releaseSeq 0 [10, 20, 30]).2.length = 1 ∧
      ∃ idle2, lookupKey ((Pool.mk (fun _ => 0) (fun _ => true) 2
        [(0, [])] : Pool Nat Nat).releaseSeq 0 [10, 20, 30]).1.pools 0
          = some idle2 ∧ idle2.length = 2) := by
  constructor
  · exact ((C2_release_spec.1
      (Pool.mk (fun _ => 0) (fun _ => true) 1 [(0, [5])] : Pool Nat Nat)
      0 [5] 7 rfl).1 (Or.inl (by decide)))
  · exact C2_release_spec.2
      (Pool.mk (fun _ => 0) (fun _ => true) 2 [(0, [])] : Pool Nat Nat)
      0 [10, 20, 30] (fun r => rfl) rfl rfl

/-- Claim C3: in every state reachable from a fresh pool by the public
operations (acquire, release, purge, purgeAll, has), every key present in
the mapping has an idle-list of length at most `maxIdle`. -/
theorem C3_maxIdle_invariant [DecidableEq K] (create : K → R)
    (validate : R → Bool) (maxIdle : Nat) (p : Pool K R)
    (hreach : Reachable create validate maxIdle p) (k : K) (l : List R)
    (hl : lookupKey p.pools k = some l) : l.length ≤ maxIdle := by
  obtain ⟨ops, rfl⟩ := hreach
  have hg :=
    goodState_run ops (Pool.init create validate maxIdle)
      (goodState_init create validate maxIdle) k l hl
  rwa [run_maxIdle] at hg

/-- Witness for C3: after one `acquire 0` from a fresh pool with
`maxIdle = 2`, key 0's idle-list has length at most 2. -/
theorem C3_witness : ([] : List Nat).length ≤ 2 :=
  C3_maxIdle_invariant (fun _ : Nat => (0 : Nat)) (fun _ => true) 2
    ((Pool.init (fun _ : Nat => (0 : Nat)) (fun _ => true) 2).run [Op.acquire 0])
    ⟨[Op.acquire 0], rfl⟩ 0 [] rfl

theorem Pool.release_lookup_ne [DecidableEq K] (p : Pool K R) (k : K) (r : R)
    (j : K) (hne : j ≠ k) :
    lookupKey (p.release k r).1.pools j = lookupKey p.pools j := by
  cases hlk : lookupKey p.pools k with
  | none => rw [Pool.release_none p k r hlk]
  | some idle =>
    by_cases hc : p.maxIdle ≤ idle.length ∨ p.validate r = false
    · rw [Pool.release_destroy p k r idle hlk hc]
    · obtain ⟨hlen, hv⟩ := not_release_cond hc
      rw [Pool.release_push p k r idle hlk hlen hv]
      show lookupKey (setKey p.pools k (r :: idle)) j = lookupKey p.pools j
      rw [lookupKey_setKey, if_neg hne]

/-- Claim C9: an `acquire`, `release` or `purge` on key `a` leaves key
`b`'s idle-list and presence unchanged (for `b ≠ a`), `has` changes no
state at all, and none of the operations change the configuration
(`maxIdle`, `validate`) that governs key `b`'s eviction behaviour. -/
theorem C9_key_independence [DecidableEq K] (p : Pool K R) (a b : K) (r : R)
    (hne : b ≠ a) :
    lookupKey (p.acquire a).pool.pools b = lookupKey p.pools b ∧
    (p.acquire a).pool.has b = p.has b ∧
    lookupKey (p.release a r).1.pools b = lookupKey p.pools b ∧
    (p.release a r).1.has b = p.has b ∧
    lookupKey (p.purge a).1.pools b = lookupKey p.pools b ∧
    (p.purge a).1.has b = p.has b ∧
    Pool.step p (Op.hasKey a) = p ∧
    (p.acquire a).pool.maxIdle = p.maxIdle ∧
    (p.acquire a).pool.validate = p.validate ∧
    (p.release a r).1.maxIdle = p.maxIdle ∧
    (p.release a r).1.validate = p.validate ∧
    (p.purge a).1.maxIdle = p.maxIdle ∧
    (p.purge a).1.validate = p.validate := by
  refine ⟨?_, ?_, ?_, ?_, ?_, ?_, rfl, ?_, ?_, ?_, ?_, rfl, rfl⟩
  · rw [Pool.acquire_pool_eq]
    show lookupKey (setKey p.pools a _) b = lookupKey p.pools b
    rw [lookupKey_setKey, if_neg hne]
  · rw [Pool.acquire_has, if_neg hne]
  · exact Pool.release_lookup_ne p a r b hne
  · exact Pool.release_has p a r b
  · show lookupKey (eraseKey p.pools a) b = lookupKey p.pools b
    rw [lookupKey_eraseKey, if_neg hne]
  · rw [Pool.purge_has, if_neg hne]
  · rw [Pool.acquire_pool_eq]
  · rw [Pool.acquire_pool_eq]
  · exact (Pool.release_fst_fields p a r).2.2
  · exact (Pool.release_fst_fields p a r).2.1

/-- Witness for C9: operating on key 0 of a two-key pool leaves key 1's
idle-list, presence and the pool configuration untouched. -/
theorem C9_witness :
    lookupKey ((Pool.mk (fun _ => 0) (fun _ => true) 50
        [(0, [1]), (1, [2])] : Pool Nat Nat).acquire 0).pool.pools 1
      = lookupKey (Pool.mk (fun _ => 0) (fun _ => true) 50
        [(0, [1]), (1, [2])] : Pool Nat Nat).pools 1 ∧
    lookupKey (((Pool.mk (fun _ => 0) (fun _ => true) 50
        [(0, [1]), (1, [2])] : Pool Nat Nat).release 0 9).1.pools) 1
      = lookupKey (Pool.mk (fun _ => 0) (fun _ => true) 50
        [(0, [1]), (1, [2])] : Pool Nat Nat).pools 1 ∧
    lookupKey (((Pool.mk (fun _ => 0) (fun _ => true) 50
        [(0, [1]), (1, [2])] : Pool Nat Nat).purge 0).1.pools) 1
      = lookupKey (Pool.mk (fun _ => 0) (fun _ => true) 50
        [(0, [1]), (1, [2])] : Pool Nat Nat).pools 1 := by
  have h := C9_key_independence
    (Pool.mk (fun _ => 0) (fun _ => true) 50
      [(0, [1]), (1, [2])] : Pool Nat Nat) 0 1 9 (by decide)
  exact ⟨h.1, h.2.2.1, h.2.2.2.2.1⟩

theorem Pool.acquire_always_valid [DecidableEq K] (p : Pool K R) (k : K)
    (hval : ∀ r, p.validate r = true) :
    p.acquire k =
      match (lookupKey p.pools k).getD [] with
      | r :: rest =>
        AcquireResult.mk r { p with pools := setKey p.pools k rest } [] false
      | [] =>
        AcquireResult.mk (p.create k)
          { p with pools := setKey p.pools k [] } [] true := by
  rw [Pool.acquire_eq]
  cases hidle : (lookupKey p.pools k).getD [] with
  | nil => simp
  | cons r rest =>
    simp [List.dropWhile_cons, List.takeWhile_cons, hval r]

/-- Claim C4 counterexample: with `maxIdle = 0` the bound release destroys
the resource instead of re-pooling it, so the subsequent `acquire` (under
an always-true validator) calls `create` a second time, refuting the claim
at this input. -/
theorem C4_counterexample :
    ((((Pool.mk (fun _ => 42) (fun _ => true) 0 [] : Pool Nat Nat).acquire
        0).pool.release 0
      ((Pool.mk (fun _ => 42) (fun _ => true) 0 [] : Pool Nat Nat).acquire
        0).resource).1.acquire 0).createdNew = true := by
  decide

/-- Claim C4 (amended): provided `maxIdle ≥ 1` and the key's idle-list does
not exceed `maxIdle` (as in every reachable state), after `acquire(k)`
returns resource R and R's bound release callback is invoked, the next
`acquire(k)` under an always-true validator returns R itself and does not
call `create` again. -/
theorem C4_reuse [DecidableEq K] (p : Pool K R) (k : K)
    (hmax : 1 ≤ p.maxIdle)
    (hlen : ((lookupKey p.pools k).getD []).length ≤ p.maxIdle)
    (hval : ∀ r, p.validate r = true) :
    (((p.acquire k).pool.release k (p.acquire k).resource).1.acquire k).resource
        = (p.acquire k).resource ∧
    (((p.acquire k).pool.release k (p.acquire k).resource).1.acquire
        k).createdNew = false := by
  rw [Pool.acquire_always_valid p k hval]
  cases hidle : (lookupKey p.pools k).getD [] with
  | nil =>
    dsimp only
    have hlk1 : lookupKey (setKey p.pools k ([] : List R)) k = some [] := by
      rw [lookupKey_setKey, if_pos rfl]
    have e2 := Pool.release_push { p with pools := setKey p.pools k [] } k
      (p.create k) [] hlk1 (by simpa using hmax) (hval (p.create k))
    rw [e2]
    dsimp only
    have hlk2 : lookupKey (setKey (setKey p.pools k ([] : List R)) k
        [p.create k]) k = some [p.create k] := by
      rw [lookupKey_setKey, if_pos rfl]
    rw [Pool.acquire_always_valid
      (Pool.mk p.create p.validate p.maxIdle
        (setKey (setKey p.pools k []) k [p.create k])) k hval]
    dsimp only
    rw [hlk2]
    exact ⟨rfl, rfl⟩
  | cons r rest =>
    dsimp only
    have hlk1 : lookupKey (setKey p.pools k rest) k = some rest := by
      rw [lookupKey_setKey, if_pos rfl]
    have hrest : rest.length < p.maxIdle := by
      rw [hidle] at hlen
      simp only [List.length_cons] at hlen
      omega
    have e2 := Pool.release_push { p with pools := setKey p.pools k rest } k
      r rest hlk1 hrest (hval r)
    rw [e2]
    dsimp only
    have hlk2 : lookupKey (setKey (setKey p.pools k rest) k (r :: rest)) k
        = some (r :: rest) := by
      rw [lookupKey_setKey, if_pos rfl]
    rw [Pool.acquire_always_valid
      (Pool.mk p.create p.validate p.maxIdle
        (setKey (setKey p.pools k rest) k (r :: rest))) k hval]
    dsimp only
    rw [hlk2]
    exact ⟨rfl, rfl⟩

/-- Witness for C4 (amended): with `maxIdle = 50`, acquiring, releasing and
re-acquiring key 0 of a fresh pool returns the same resource without a
second call to `create`. -/
theorem C4_witness :
    ((((Pool.init (fun _ : Nat => (42 : Nat)) (fun _ => true) 50).acquire
        0).pool.release 0
      ((Pool.init (fun _ : Nat => (42 : Nat)) (fun _ => true) 50).acquire
        0).resource).1.acquire 0).resource
      = ((Pool.init (fun _ : Nat => (42 : Nat)) (fun _ => true) 50).acquire
        0).resource ∧
    ((((Pool.init (fun _ : Nat => (42 : Nat)) (fun _ => true) 50).acquire
        0).pool.release 0
      ((Pool.init (fun _ : Nat => (42 : Nat)) (fun _ => true) 50).acquire
        0).resource).1.acquire 0).createdNew = false :=
  C4_reuse (Pool.init (fun _ : Nat => (42 : Nat)) (fun _ => true) 50) 0
    (by decide) (by decide) (fun r => rfl)

/-- Claim C8 counterexample: when key 0 has one idle resource that fails
`validate` and the factory throws, the acquire both propagates the error
and destroys that resource, refuting "no resource is destroyed by that
failed acquire". -/
theorem C8_counterexample :
    ((Pool.mk (fun _ => 0) (fun _ => false) 50
        [(0, [5])] : Pool Nat Nat).acquireE
      (fun _ => Except.error "boom") 0).1 = Except.error "boom" ∧
    ((Pool.mk (fun _ => 0) (fun _ => false) 50
        [(0, [5])] : Pool Nat Nat).acquireE
      (fun _ => Except.error "boom") 0).2.2 ≠ [] := by
  constructor
  · rfl
  · decide

/-- Claim C8 (amended): if the factory raises during `acquire(key)` (which
happens only after every idle resource of the key was popped and failed
`validate`), the error propagates unchanged with no retry, the only state
change is that the key's idle-list exists and is empty (no resource is
stored or leaked), and `destroy` is called exactly on the resources that
were in the idle-list — zero when the list was empty at the start. -/
theorem C8_create_failure [DecidableEq K] (p : Pool K R)
    (createE : K → Except E R) (k : K) (e : E)
    (hc : createE k = Except.error e)
    (hinv : ∀ r ∈ (lookupKey p.pools k).getD [], p.validate r = false) :
    (p.acquireE createE k).1 = Except.error e ∧
    (p.acquireE createE k).2.1 = { p with pools := setKey p.pools k [] } ∧
    (p.acquireE createE k).2.2 = (lookupKey p.pools k).getD [] := by
  have hpl := popLoop_all_invalid p.validate ((lookupKey p.pools k).getD []) hinv
  have he : p.acquireE createE k
      = (createE k, { p with pools := setKey p.pools k [] },
          (lookupKey p.pools k).getD []) := by
    simp only [Pool.acquireE, hpl]
  refine ⟨?_, ?_, ?_⟩ <;> rw [he]
  exact hc

/-- Witness for C8 (amended): the failed acquire returns the factory's
error, the key's list exists and is empty, and the destroyed log is exactly
the previously idle (invalid) resource. -/
theorem C8_witness :
    ((Pool.mk (fun _ => 1) (fun _ => false) 50
        [(0, [5])] : Pool Nat Nat).acquireE
      (fun _ => (Except.error "die" : Except String Nat)) 0).1
        = Except.error "die" ∧
    ((Pool.mk (fun _ => 1) (fun _ => false) 50
        [(0, [5])] : Pool Nat Nat).acquireE
      (fun _ => (Except.error "die" : Except String Nat)) 0).2.1
        = (Pool.mk (fun _ => 1) (fun _ => false) 50 [(0, [])] : Pool Nat Nat) ∧
    ((Pool.mk (fun _ => 1) (fun _ => false) 50
        [(0, [5])] : Pool Nat Nat).acquireE
      (fun _ => (Except.error "die" : Except String Nat)) 0).2.2 = [5] :=
  C8_create_failure
    (Pool.mk (fun _ => 1) (fun _ => false) 50 [(0, [5])] : Pool Nat Nat)
    (fun _ => (Except.error "die" : Except String Nat)) 0 "die" rfl
    (by decide)

end PoolSpec
